import Mathlib

/-!
# Shallow embedding of the portfolio valuation and statistics routes

This file embeds, over exact rational arithmetic, the computational core of
the `hsbc-training-backend` repository:

* the valuation engine of `GET /api/portfolios/:id/summary`
  (`src/routes/portfolio.js`, lines 328–450),
* the net-worth series builder of `GET /api/portfolios/:userId/returns`
  (`src/routes/portfolio.js`, lines 474–527),
* the monthly profit delta of `GET /api/statistics/users/:userId/monthly-profit`
  (`src/routes/statistics.js`, lines 191–281),
* the top-movers ranking of `GET /api/statistics/assets/top`
  (`src/routes/statistics.js`, lines 36–71).

JavaScript numbers are modelled as `ℚ`; the `toFixed(n)` conversions that the
routes apply to values placed in the response body are modelled explicitly by
`round2` / `round4` (round to the nearest multiple of `10⁻ⁿ`, ties towards the
larger integer, as ECMAScript `Number.prototype.toFixed` specifies).
-/

namespace Backend

/-- Rounding to two decimal places: models `parseFloat(x.toFixed(2))`.
ECMAScript `toFixed` first extracts the sign (`If x < 0, set s to "-" and
x to -x`) and then picks the integer `n` minimising `|n / 10^f - x|`,
choosing the larger `n` on a tie — so ties round away from zero:
`(-0.125).toFixed(2)` is `"-0.13"`. -/
def round2 (x : ℚ) : ℚ :=
  if x < 0 then -((Rat.floor (-x * 100 + 1/2) : ℚ) / 100)
  else (Rat.floor (x * 100 + 1/2) : ℚ) / 100

/-- Rounding to four decimal places: models `parseFloat(x.toFixed(4))`, with
the same sign extraction as `round2` (ties away from zero). -/
def round4 (x : ℚ) : ℚ :=
  if x < 0 then -((Rat.floor (-x * 10000 + 1/2) : ℚ) / 10000)
  else (Rat.floor (x * 10000 + 1/2) : ℚ) / 10000

/-- An `AssetInfo` row as the routes consume it: asset code, display name,
asset type (`"stock"`, `"bond"`, `"cash"`), current price, and the parallel
history arrays `historyPriceArr` / `dateArr` (dates abstracted to `Nat`). -/
structure AssetInfo where
  assetCode : String
  name : String
  assetType : String
  price : ℚ
  historyPriceArr : List ℚ
  dateArr : List Nat
deriving Repr, DecidableEq

/-- A `PortfolioItem` row (a ledger transaction): asset code, asset type,
direction (`"buy"` or `"sell"`), quantity and total monetary amount. -/
structure Item where
  assetCode : String
  assetType : String
  type : String
  quantity : ℚ
  amount : ℚ
deriving Repr, DecidableEq

/-- The per-asset holding record built by the summary route
(`holdings[item.assetCode]` in `portfolio.js`). -/
structure Holding where
  assetCode : String
  name : String
  assetType : String
  quantity : ℚ
  cost : ℚ
  avgCost : ℚ
  currentPrice : ℚ
  marketValue : ℚ
  unrealizedGain : ℚ
  status : String
deriving Repr, DecidableEq

/-- The accumulator threaded through the `items.forEach` loop of the summary
route: the keyed `holdings` object (an insertion-ordered association list, as
JavaScript string-keyed objects are) and the running `realizedGain`. -/
structure ValState where
  holdings : List Holding
  realizedGain : ℚ
deriving Repr, DecidableEq

/-- The fresh holding created when `holdings[item.assetCode]` is first
initialised (lines 364–377 of `portfolio.js`). -/
def initHolding (item : Item) (asset : AssetInfo) : Holding :=
  { assetCode := item.assetCode
    name := asset.name
    assetType := item.assetType
    quantity := 0
    cost := 0
    avgCost := 0
    currentPrice := asset.price
    marketValue := 0
    unrealizedGain := 0
    status := "closed" }

/-- The buy/sell update applied to the keyed holding `h` (lines 381–390):
returns the updated holding together with the contribution this transaction
makes to `realizedGain`.  `tradePrice` is `item.amount / item.quantity`. -/
def applyItem (item : Item) (tradePrice : ℚ) (h : Holding) : Holding × ℚ :=
  if item.type = "buy" then
    ({ h with quantity := h.quantity + item.quantity, cost := h.cost + item.amount }, 0)
  else if item.type = "sell" then
    let avgCost := if h.quantity > 0 then h.cost / h.quantity else tradePrice
    ({ h with quantity := h.quantity - item.quantity,
              cost := h.cost - avgCost * item.quantity },
     (tradePrice - avgCost) * item.quantity)
  else
    (h, 0)

/-- Apply `applyItem` to the unique entry of the holdings list keyed by
`item.assetCode` (the mutation of `holdings[item.assetCode]` in the source),
leaving the other entries untouched. -/
def applyAt (item : Item) (tradePrice : ℚ) : List Holding → List Holding × ℚ
  | [] => ([], 0)
  | h :: hs =>
    if h.assetCode = item.assetCode then
      let p := applyItem item tradePrice h
      (p.1 :: hs, p.2)
    else
      let p := applyAt item tradePrice hs
      (h :: p.1, p.2)

/-- One iteration of the `items.forEach` loop (lines 354–391): items whose
asset code has no entry in the asset map are skipped (`if (!asset) return`),
otherwise the keyed holding is located or initialised and updated. -/
def stepItem (pm : String → Option AssetInfo) (st : ValState) (item : Item) : ValState :=
  match pm item.assetCode with
  | none => st
  | some asset =>
    let tradePrice := item.amount / item.quantity
    let hs0 :=
      if st.holdings.any (fun h => h.assetCode == item.assetCode) then st.holdings
      else st.holdings ++ [initHolding item asset]
    let p := applyAt item tradePrice hs0
    { holdings := p.1, realizedGain := st.realizedGain + p.2 }

/-- The post-processing of each holding (lines 394–424): classify by the sign
of the final quantity and fill in `avgCost`, `marketValue`, `unrealizedGain`
and `status`. -/
def finalizeHolding (h : Holding) : Holding :=
  if h.quantity > 0 then
    let avgCost := h.cost / h.quantity
    { h with status := "long", avgCost := avgCost,
             marketValue := h.quantity * h.currentPrice,
             unrealizedGain := (h.currentPrice - avgCost) * h.quantity }
  else if h.quantity < 0 then
    let avgCost := h.cost / h.quantity
    { h with status := "short", avgCost := avgCost,
             marketValue := h.quantity * h.currentPrice,
             unrealizedGain := (avgCost - h.currentPrice) * |h.quantity| }
  else
    { h with status := "closed", avgCost := 0, marketValue := 0, unrealizedGain := 0 }

/-- The summary structure assembled by the route (lines 426–449; `totalCost`
is computed at lines 429–431 and used for `totalGainPercent`). -/
structure Summary where
  totalValue : ℚ
  realizedGain : ℚ
  unrealizedGain : ℚ
  totalGain : ℚ
  totalCost : ℚ
  totalGainPercent : ℚ
  assetCount : Nat
  holdings : List Holding
deriving Repr, DecidableEq

/-- The full valuation of `GET /api/portfolios/:id/summary` as a pure function
of the transaction list and the asset map (`assetMap` at line 346, modelled as
a lookup function).  `totalValue` and `unrealizedGain` accumulate only in the
`quantity > 0` / `quantity < 0` branches of the classification loop, exactly
as in the source; `totalGainPercent` models
`(totalGain / totalCost * 100).toFixed(2)` with `"0.00"` for a non-positive
`totalCost`. -/
def computeSummary (items : List Item) (pm : String → Option AssetInfo) : Summary :=
  let st := items.foldl (stepItem pm) ⟨[], 0⟩
  let hs := st.holdings.map finalizeHolding
  let totalValue := hs.foldl (fun s h => if h.quantity = 0 then s else s + h.marketValue) 0
  let unrealizedGain := hs.foldl (fun s h => if h.quantity = 0 then s else s + h.unrealizedGain) 0
  let totalGain := st.realizedGain + unrealizedGain
  let totalCost := (hs.filter (fun h => h.quantity ≠ 0)).foldl (fun s h => s + |h.cost|) 0
  let totalGainPercent := if totalCost > 0 then round2 (totalGain / totalCost * 100) else 0
  let assetCount := (hs.filter (fun h => h.quantity > 0)).length
  { totalValue := totalValue
    realizedGain := st.realizedGain
    unrealizedGain := unrealizedGain
    totalGain := totalGain
    totalCost := totalCost
    totalGainPercent := totalGainPercent
    assetCount := assetCount
    holdings := hs }

/-! ## Net-worth series: `GET /api/portfolios/:userId/returns` -/

/-- A `PortfolioItem` row as the returns route receives it after the JOIN:
the direction (the query keeps only `type: 'buy'` rows), the quantity, and the
joined `AssetInfo` (absent when the join found none). -/
structure RItem where
  type : String
  quantity : ℚ
  assetInfo : Option AssetInfo
deriving Repr, DecidableEq

/-- A portfolio with its joined items, as the returns route receives it. -/
structure RPortfolio where
  name : String
  items : List RItem
deriving Repr, DecidableEq

/-- The items of `p` the returns route iterates over: the JOIN's
`where: { isDeleted: false, type: 'buy' }` keeps only buy rows. -/
def buyItems (p : RPortfolio) : List RItem :=
  p.items.filter (fun it => it.type = "buy")

/-- All `AssetInfo` rows attached to some buy item of some portfolio, in
iteration order (items without a joined asset are skipped). -/
def referencedAssets (ps : List RPortfolio) : List AssetInfo :=
  (ps.map (fun p => (buyItems p).filterMap (fun it => it.assetInfo))).flatten

/-- The common time axis (`maxDateArr`, lines 502–509 of `portfolio.js`): the
first strictly-longest `dateArr` among the referenced assets, starting from
the empty array. -/
def selectAxis (ps : List RPortfolio) : List Nat :=
  (referencedAssets ps).foldl
    (fun acc a => if acc.length < a.dateArr.length then a.dateArr else acc) []

/-- The body of the inner accumulation of lines 514–520: items without a
joined asset are skipped (`if (!item.AssetInfo) return`), the rest add
`historyPriceArr?.[idx] || 0` times the quantity — price `0` when the index
is out of range. -/
def rValueStep (idx : Nat) (tv : ℚ) (it : RItem) : ℚ :=
  match it.assetInfo with
  | none => tv
  | some a => tv + a.historyPriceArr.getD idx 0 * it.quantity

/-- The inner accumulation of lines 514–520: `totalValue` over the
portfolio's (buy) items. -/
def portfolioValueAt (p : RPortfolio) (idx : Nat) : ℚ :=
  (buyItems p).foldl (rValueStep idx) 0

/-- A string-keyed object write, `obj[key] = v` on a plain JavaScript object:
an existing key keeps its insertion position and gets the new value, a fresh
key is appended. -/
def objInsert (key : String) (v : List (Nat × ℚ))
    (obj : List (String × List (Nat × ℚ))) : List (String × List (Nat × ℚ)) :=
  if obj.any (fun e => e.1 == key) then
    obj.map (fun e => if e.1 = key then (key, v) else e)
  else obj ++ [(key, v)]

/-- The whole route (lines 474–527): for each portfolio, the series over the
common axis — each value rounded by `parseFloat(totalValue.toFixed(2))` — is
written into the result object as `result[p.name] = values`, so portfolios
sharing a name collapse last-write-wins. -/
def buildNetWorthSeries (ps : List RPortfolio) : List (String × List (Nat × ℚ)) :=
  let axis := selectAxis ps
  ps.foldl
    (fun result p =>
      objInsert p.name
        (axis.enum.map (fun e => (e.2, round2 (portfolioValueAt p e.1)))) result)
    []

/-- The contribution of one item in the spec's description: defined exactly
when the item has a joined asset with a price at the index, and then equal to
`price[index] × quantity`. -/
def specContrib (idx : Nat) (it : RItem) : Option ℚ :=
  it.assetInfo.bind (fun a => (a.historyPriceArr.get? idx).map (fun pr => pr * it.quantity))

/-- The spec's description of the value at a time index: the sum of
`price[index] × quantity` over every buy-type item whose asset has a price
defined at that index (no rounding).  Kept separate from `portfolioValueAt`
so the two can be compared. -/
def specValueAt (p : RPortfolio) (idx : Nat) : ℚ :=
  ((buyItems p).filterMap (specContrib idx)).sum

/-! ## Monthly profit: `GET /api/statistics/users/:userId/monthly-profit` -/

/-- A `ProfitLog` row joined with its `PortfolioItem`: the log date
(an abstract orderable timestamp), the value, and the owning item's asset
type — `none` models a log whose `itemId` matches no item (the route skips
those with `continue`). -/
structure PLog where
  date : Nat
  value : ℚ
  assetType : Option String
deriving Repr, DecidableEq

/-- One step of the `monthlyValue` accumulation (lines 242–252 of
`statistics.js`) for one asset type `ty`: the table maps a month label to the
`(date, value)` retained for it; a later log replaces the stored pair only if
its date is strictly greater.  `monthOf` models `dayjs(date).format('YYYY-MM')`
as a pure function of the timestamp. -/
def retainStep (monthOf : Nat → Nat) (ty : String) (acc : List (Nat × Nat × ℚ))
    (log : PLog) : List (Nat × Nat × ℚ) :=
  if log.assetType = some ty then
    let m := monthOf log.date
    match acc.find? (fun e => e.1 == m) with
    | none => acc ++ [(m, log.date, log.value)]
    | some e =>
      if e.2.1 < log.date then
        acc.map (fun e2 => if e2.1 = m then (m, log.date, log.value) else e2)
      else acc
  else acc

/-- The per-type `monthlyValue` table after all logs are processed. -/
def monthlyValue (monthOf : Nat → Nat) (ty : String) (logs : List PLog) :
    List (Nat × Nat × ℚ) :=
  logs.foldl (retainStep monthOf ty) []

/-- `monthlyValue[type][month]?.value || 0`: the retained value for a month,
`0` when the month has no entry. -/
def mvLookup (mv : List (Nat × Nat × ℚ)) (m : Nat) : ℚ :=
  match mv.find? (fun e => e.1 == m) with
  | some e => e.2.2
  | none => 0

/-- The profit series for one asset type (lines 231–273): one `(month, profit)`
pair per label; index 0 keeps its initial profit `0`, and index `i ≥ 1` gets
`value-at-month[i] − value-at-month[i−1]`. -/
def monthlyProfitFor (monthOf : Nat → Nat) (ty : String) (logs : List PLog)
    (monthLabels : List Nat) : List (Nat × ℚ) :=
  let mv := monthlyValue monthOf ty logs
  (List.range monthLabels.length).map
    (fun i =>
      (monthLabels.getD i 0,
       if i = 0 then 0
       else mvLookup mv (monthLabels.getD i 0) - mvLookup mv (monthLabels.getD (i - 1) 0)))

/-! ## Top movers: `GET /api/statistics/assets/top` -/

/-- A record of the ranked output (lines 50–55 of `statistics.js`).  The
`growth` field is `parseFloat(((last / first) - 1).toFixed(4)) * 100`. -/
structure Ranked where
  assetCode : String
  name : String
  price : ℚ
  growth : ℚ
deriving Repr, DecidableEq

/-- The ranked record built for an asset with at least two price points. -/
def mkRanked (a : AssetInfo) : Ranked :=
  { assetCode := a.assetCode
    name := a.name
    price := a.price
    growth := round4 (a.historyPriceArr.getLastD 0 / a.historyPriceArr.headD 0 - 1) * 100 }

/-- One step of the partitioning loop (lines 45–62): assets with fewer than
two price observations are skipped, the rest are appended to the stock or the
bond list by asset type (other types are dropped). -/
def topStep (acc : List Ranked × List Ranked) (a : AssetInfo) :
    List Ranked × List Ranked :=
  if a.historyPriceArr.length < 2 then acc
  else if a.assetType = "stock" then (acc.1 ++ [mkRanked a], acc.2)
  else if a.assetType = "bond" then (acc.1, acc.2 ++ [mkRanked a])
  else acc

/-- Stable insertion for the descending-by-growth sort: `r` goes before the
first element of strictly smaller growth (a stable sort, as ECMAScript 2019
`Array.prototype.sort` with comparator `(a, b) => b.growth - a.growth` is). -/
def insertDesc (r : Ranked) : List Ranked → List Ranked
  | [] => [r]
  | x :: xs => if x.growth ≤ r.growth then r :: x :: xs else x :: insertDesc r xs

/-- Stable sort in descending order of `growth`. -/
def sortDesc : List Ranked → List Ranked
  | [] => []
  | x :: xs => insertDesc x (sortDesc xs)

/-- The whole ranking (lines 36–71): partition, sort each partition descending
by growth, truncate each to `limit`. -/
def topMovers (assets : List AssetInfo) (limit : Nat) : List Ranked × List Ranked :=
  let p := assets.foldl topStep ([], [])
  ((sortDesc p.1).take limit, (sortDesc p.2).take limit)

/-! ## Concrete fixtures used by the examples, witnesses and counterexamples -/

/-- An asset priced at 12 per unit. -/
def exAsset : AssetInfo := ⟨"AAPL", "Apple Inc.", "stock", 12, [10, 11, 12], [1, 2, 3]⟩

/-- An asset map holding only `exAsset`. -/
def exPm : String → Option AssetInfo := fun c => if c = "AAPL" then some exAsset else none

/-- Buy 10 units for 100 total (10 per unit). -/
def exBuy10 : Item := ⟨"AAPL", "stock", "buy", 10, 100⟩

/-- Sell 4 units for 50 total (12.5 per unit). -/
def exSell4 : Item := ⟨"AAPL", "stock", "sell", 4, 50⟩

/-- Sell 10 units for 130 total (closes a 10-unit position). -/
def exSell10 : Item := ⟨"AAPL", "stock", "sell", 10, 130⟩

/-- Sell 5 units for 50 total with no prior holding (opens a short). -/
def exSellShort : Item := ⟨"AAPL", "stock", "sell", 5, 50⟩

/-- An item whose asset code has no entry in `exPm`. -/
def exOrphan : Item := ⟨"NOPE", "stock", "buy", 1, 10⟩

/-! ## Helper lemmas on the valuation step -/

/-- `applyItem` never changes the asset code of the holding it updates. -/
theorem applyItem_assetCode (item : Item) (tp : ℚ) (h : Holding) :
    (applyItem item tp h).1.assetCode = h.assetCode := by
  unfold applyItem
  split
  · rfl
  · split <;> rfl

/-- If the first holding keyed by the item's asset code is `h`, then `applyAt`
replaces exactly that entry by `applyItem`'s update and returns `applyItem`'s
realized-gain contribution. -/
theorem applyAt_find (item : Item) (tp : ℚ) :
    ∀ (hs : List Holding) (h : Holding),
      hs.find? (fun g => g.assetCode == item.assetCode) = some h →
      (applyAt item tp hs).2 = (applyItem item tp h).2 ∧
      (applyAt item tp hs).1.find? (fun g => g.assetCode == item.assetCode) =
        some (applyItem item tp h).1 := by
  intro hs
  induction hs with
  | nil => intro h hfind; simp [List.find?] at hfind
  | cons g gs ih =>
    intro h hfind
    by_cases hg : g.assetCode = item.assetCode
    · have : (g.assetCode == item.assetCode) = true := by simpa using hg
      rw [List.find?] at hfind
      rw [this] at hfind
      simp only [Option.some.injEq] at hfind
      subst hfind
      constructor
      · simp [applyAt, hg]
      · simp [applyAt, hg, List.find?, applyItem_assetCode, this]
    · have hbeq : (g.assetCode == item.assetCode) = false := by
        simpa using hg
      rw [List.find?] at hfind
      rw [hbeq] at hfind
      obtain ⟨h1, h2⟩ := ih h hfind
      constructor
      · simpa [applyAt, hg] using h1
      · simpa [applyAt, hg, List.find?, hbeq] using h2

/-- When the holdings list already has an entry keyed by the item's code,
`stepItem` (for an item whose asset is in the map) keeps the list found and
applies `applyAt`. -/
theorem stepItem_found (pm : String → Option AssetInfo) (st : ValState) (item : Item)
    (asset : AssetInfo) (h : Holding)
    (hpm : pm item.assetCode = some asset)
    (hfind : st.holdings.find? (fun g => g.assetCode == item.assetCode) = some h) :
    stepItem pm st item =
      { holdings := (applyAt item (item.amount / item.quantity) st.holdings).1,
        realizedGain :=
          st.realizedGain + (applyAt item (item.amount / item.quantity) st.holdings).2 } := by
  have hp := List.find?_some hfind
  have hm := List.mem_of_find?_eq_some hfind
  have hany : st.holdings.any (fun g => g.assetCode == item.assetCode) = true :=
    List.any_eq_true.mpr ⟨h, hm, hp⟩
  simp [stepItem, hpm, hany]

/-- C1: processing a sell while the running holding quantity is strictly
positive adds `(sell unit price − average cost) × sell quantity` to
`realizedGain`, where the average cost is running cost / running quantity, and
decrements the holding's quantity by the sell quantity and its cost by
`avgCost × sellQty`; in particular, a buy of 10 units at 100 total followed by
a sell of 4 units at 50 total contributes `(12.5 − 10) × 4 = 10` to
`realizedGain` and leaves quantity 6, cost 60 and average cost 10. -/
theorem C1_sell_positive_qty :
    (∀ (pm : String → Option AssetInfo) (st : ValState) (item : Item)
        (asset : AssetInfo) (h : Holding),
        pm item.assetCode = some asset →
        item.type = "sell" →
        st.holdings.find? (fun g => g.assetCode == item.assetCode) = some h →
        0 < h.quantity →
        (stepItem pm st item).realizedGain
            = st.realizedGain + (item.amount / item.quantity - h.cost / h.quantity) * item.quantity
          ∧ (stepItem pm st item).holdings.find? (fun g => g.assetCode == item.assetCode)
            = some { h with quantity := h.quantity - item.quantity,
                            cost := h.cost - (h.cost / h.quantity) * item.quantity })
    ∧ (computeSummary [exBuy10, exSell4] exPm).realizedGain = 10
    ∧ (computeSummary [exBuy10, exSell4] exPm).holdings.map
        (fun h => (h.quantity, h.cost, h.avgCost)) = [(6, 60, 10)] := by
  refine ⟨?_, ?_, ?_⟩
  · intro pm st item asset h hpm hty hfind hq
    obtain ⟨h2, h1⟩ := applyAt_find item (item.amount / item.quantity) st.holdings h hfind
    rw [stepItem_found pm st item asset h hpm hfind]
    have happ : applyItem item (item.amount / item.quantity) h =
        ({ h with quantity := h.quantity - item.quantity,
                  cost := h.cost - (h.cost / h.quantity) * item.quantity },
         (item.amount / item.quantity - h.cost / h.quantity) * item.quantity) := by
      simp [applyItem, hty, hq]
    rw [happ] at h2 h1
    exact ⟨by rw [h2], by rw [h1]⟩
  · simp [computeSummary, stepItem, applyAt, applyItem, initHolding, finalizeHolding,
      exPm, exBuy10, exSell4, exAsset] <;> norm_num
  · simp [computeSummary, stepItem, applyAt, applyItem, initHolding, finalizeHolding,
      exPm, exBuy10, exSell4, exAsset] <;> norm_num

/-- C8: processing a sell while the running holding quantity is zero or
negative uses the sell's own unit price as the average cost, so the
realized-gain contribution is exactly 0 and `realizedGain` is unchanged;
the holding's quantity still drops by the sell quantity and its cost by
`tradePrice × sellQty`. -/
theorem C8_sell_fallback_zero_gain :
    (∀ (pm : String → Option AssetInfo) (st : ValState) (item : Item)
        (asset : AssetInfo) (h : Holding),
        pm item.assetCode = some asset →
        item.type = "sell" →
        st.holdings.find? (fun g => g.assetCode == item.assetCode) = some h →
        ¬ 0 < h.quantity →
        (stepItem pm st item).realizedGain = st.realizedGain
          ∧ (stepItem pm st item).holdings.find? (fun g => g.assetCode == item.assetCode)
            = some { h with quantity := h.quantity - item.quantity,
                            cost := h.cost - (item.amount / item.quantity) * item.quantity })
    ∧ (computeSummary [exSellShort] exPm).realizedGain = 0 := by
  constructor
  · intro pm st item asset h hpm hty hfind hq
    obtain ⟨h2, h1⟩ := applyAt_find item (item.amount / item.quantity) st.holdings h hfind
    rw [stepItem_found pm st item asset h hpm hfind]
    have happ : applyItem item (item.amount / item.quantity) h =
        ({ h with quantity := h.quantity - item.quantity,
                  cost := h.cost - (item.amount / item.quantity) * item.quantity },
         0) := by
      simp [applyItem, hty, hq]
    rw [happ] at h2 h1
    exact ⟨by rw [h2]; ring, by rw [h1]⟩
  · simp [computeSummary, stepItem, applyAt, applyItem, initHolding, finalizeHolding,
      exPm, exSellShort, exAsset] <;> norm_num

/-- A concrete open holding: 10 units at a running cost of 100. -/
def exHolding : Holding :=
  ⟨"AAPL", "Apple Inc.", "stock", 10, 100, 0, 12, 0, 0, "closed"⟩

/-- A concrete flat holding: 0 units, 0 cost. -/
def exHoldingFlat : Holding :=
  ⟨"AAPL", "Apple Inc.", "stock", 0, 0, 0, 12, 0, 0, "closed"⟩

/-- Witness for C1: the general sell rule applied to a concrete state holding
10 units at cost 100, selling 4 units for 50. -/
theorem C1_sell_positive_qty_witness :
    (stepItem exPm ⟨[exHolding], 0⟩ exSell4).realizedGain
        = 0 + (exSell4.amount / exSell4.quantity - exHolding.cost / exHolding.quantity)
            * exSell4.quantity
      ∧ (stepItem exPm ⟨[exHolding], 0⟩ exSell4).holdings.find?
          (fun g => g.assetCode == exSell4.assetCode)
        = some { exHolding with
                   quantity := exHolding.quantity - exSell4.quantity,
                   cost := exHolding.cost
                     - (exHolding.cost / exHolding.quantity) * exSell4.quantity } :=
  C1_sell_positive_qty.1 exPm ⟨[exHolding], 0⟩ exSell4 exAsset exHolding
    (by simp [exPm, exSell4, exAsset]) rfl
    (by simp [List.find?, exHolding, exSell4])
    (by norm_num [exHolding])

/-- Witness for C8: the fallback rule applied to a concrete flat holding. -/
theorem C8_sell_fallback_zero_gain_witness :
    (stepItem exPm ⟨[exHoldingFlat], 5⟩ exSellShort).realizedGain = 5
      ∧ (stepItem exPm ⟨[exHoldingFlat], 5⟩ exSellShort).holdings.find?
          (fun g => g.assetCode == exSellShort.assetCode)
        = some { exHoldingFlat with
                   quantity := exHoldingFlat.quantity - exSellShort.quantity,
                   cost := exHoldingFlat.cost
                     - (exSellShort.amount / exSellShort.quantity) * exSellShort.quantity } :=
  C8_sell_fallback_zero_gain.1 exPm ⟨[exHoldingFlat], 5⟩ exSellShort exAsset exHoldingFlat
    (by simp [exPm, exSellShort, exAsset]) rfl
    (by simp [List.find?, exHoldingFlat, exSellShort])
    (by norm_num [exHoldingFlat])

/-! ## Lemmas for the silent skip of unpriced assets (C2) -/

/-- An item whose asset code is absent from the map is a no-op
(`if (!asset) return`). -/
theorem stepItem_none (pm : String → Option AssetInfo) (st : ValState) (item : Item)
    (h : pm item.assetCode = none) : stepItem pm st item = st := by
  simp [stepItem, h]

/-- Processing a transaction list equals processing only its priced
transactions: the unpriced ones are skipped and the rest run unchanged. -/
theorem foldl_stepItem_filter (pm : String → Option AssetInfo) :
    ∀ (items : List Item) (st : ValState),
      items.foldl (stepItem pm) st
        = (items.filter (fun i => (pm i.assetCode).isSome)).foldl (stepItem pm) st := by
  intro items
  induction items with
  | nil => intro st; rfl
  | cons i is ih =>
    intro st
    cases hpm : pm i.assetCode with
    | none =>
      simp only [List.foldl_cons, List.filter_cons, hpm, Option.isSome_none,
        Bool.false_eq_true, if_false, stepItem_none pm st i hpm]
      exact ih st
    | some a =>
      simp only [List.foldl_cons, List.filter_cons, hpm, Option.isSome_some, if_true]
      exact ih (stepItem pm st i)

/-- `applyAt` keeps the asset codes of the holdings list unchanged. -/
theorem applyAt_map_assetCode (item : Item) (tp : ℚ) :
    ∀ hs : List Holding,
      (applyAt item tp hs).1.map (fun h => h.assetCode) = hs.map (fun h => h.assetCode) := by
  intro hs
  induction hs with
  | nil => rfl
  | cons g gs ih =>
    by_cases hg : g.assetCode = item.assetCode
    · simp [applyAt, hg, applyItem_assetCode]
    · simp [applyAt, hg, ih]

/-- `finalizeHolding` keeps the asset code. -/
theorem finalizeHolding_assetCode (h : Holding) :
    (finalizeHolding h).assetCode = h.assetCode := by
  unfold finalizeHolding
  split
  · rfl
  · split <;> rfl

/-- `finalizeHolding` keeps the quantity. -/
theorem finalizeHolding_quantity (h : Holding) :
    (finalizeHolding h).quantity = h.quantity := by
  unfold finalizeHolding
  split
  · rfl
  · split <;> rfl

/-- `finalizeHolding` keeps the cost. -/
theorem finalizeHolding_cost (h : Holding) :
    (finalizeHolding h).cost = h.cost := by
  unfold finalizeHolding
  split
  · rfl
  · split <;> rfl

/-- `stepItem` preserves the invariant that every holding's asset code has an
entry in the map: a holding is only ever created for a priced code. -/
theorem stepItem_preserves_priced (pm : String → Option AssetInfo) (st : ValState)
    (item : Item) (hinv : ∀ h ∈ st.holdings, (pm h.assetCode).isSome) :
    ∀ h ∈ (stepItem pm st item).holdings, (pm h.assetCode).isSome := by
  intro h hmem
  cases hpm : pm item.assetCode with
  | none =>
    rw [stepItem_none pm st item hpm] at hmem
    exact hinv h hmem
  | some a =>
    have hcode : h.assetCode ∈
        ((if st.holdings.any (fun g => g.assetCode == item.assetCode) then st.holdings
          else st.holdings ++ [initHolding item a]).map (fun g => g.assetCode)) := by
      rw [← applyAt_map_assetCode item (item.amount / item.quantity)]
      apply List.mem_map_of_mem
      simpa [stepItem, hpm] using hmem
    by_cases hany : st.holdings.any (fun g => g.assetCode == item.assetCode)
    · rw [if_pos hany] at hcode
      obtain ⟨g, hg, hgc⟩ := List.mem_map.mp hcode
      rw [← hgc]
      exact hinv g hg
    · rw [if_neg hany] at hcode
      simp only [List.map_append, List.mem_append, List.map_cons, List.map_nil,
        List.mem_singleton] at hcode
      rcases hcode with hcode | hcode
      · obtain ⟨g, hg, hgc⟩ := List.mem_map.mp hcode
        rw [← hgc]
        exact hinv g hg
      · show (pm h.assetCode).isSome
        rw [show h.assetCode = (initHolding item a).assetCode from hcode]
        simp [initHolding, hpm]

/-- Every holding the valuation outputs is keyed by a priced asset code. -/
theorem computeSummary_priced (items : List Item) (pm : String → Option AssetInfo) :
    ∀ h ∈ (computeSummary items pm).holdings, (pm h.assetCode).isSome := by
  have main : ∀ (l : List Item) (st : ValState),
      (∀ h ∈ st.holdings, (pm h.assetCode).isSome) →
      ∀ h ∈ (l.foldl (stepItem pm) st).holdings, (pm h.assetCode).isSome := by
    intro l
    induction l with
    | nil => intro st hinv; exact hinv
    | cons i is ih =>
      intro st hinv
      exact ih (stepItem pm st i) (stepItem_preserves_priced pm st i hinv)
  intro h hmem
  have hmem' : h ∈ (items.foldl (stepItem pm) ⟨[], 0⟩).holdings.map finalizeHolding := by
    simpa [computeSummary] using hmem
  obtain ⟨g, hg, hgh⟩ := List.mem_map.mp hmem'
  have hsome := main items ⟨[], 0⟩ (by intro x hx; simp at hx) g hg
  rw [← hgh, finalizeHolding_assetCode]
  exact hsome

/-- C2: a transaction whose asset code has no entry in the price map is
silently skipped: the valuation equals the valuation of the priced
transactions alone (so the remaining transactions are processed normally and
no error state exists), no holding is built for an unpriced code, and in
particular no holding in the output carries the missing code. -/
theorem C2_missing_price_skipped (items : List Item) (pm : String → Option AssetInfo)
    (code : String) (hnone : pm code = none) :
    computeSummary items pm
        = computeSummary (items.filter (fun i => (pm i.assetCode).isSome)) pm
      ∧ (∀ h ∈ (computeSummary items pm).holdings, (pm h.assetCode).isSome)
      ∧ ∀ h ∈ (computeSummary items pm).holdings, h.assetCode ≠ code := by
  refine ⟨?_, computeSummary_priced items pm, ?_⟩
  · unfold computeSummary
    rw [foldl_stepItem_filter pm items]
  · intro h hmem hcode
    have := computeSummary_priced items pm h hmem
    rw [hcode, hnone] at this
    simp at this

/-- Witness for C2: a ledger with an unpriced item next to a priced one. -/
theorem C2_missing_price_skipped_witness :
    computeSummary [exOrphan, exBuy10] exPm
        = computeSummary ([exOrphan, exBuy10].filter (fun i => (exPm i.assetCode).isSome)) exPm
      ∧ (∀ h ∈ (computeSummary [exOrphan, exBuy10] exPm).holdings, (exPm h.assetCode).isSome)
      ∧ ∀ h ∈ (computeSummary [exOrphan, exBuy10] exPm).holdings, h.assetCode ≠ "NOPE" :=
  C2_missing_price_skipped [exOrphan, exBuy10] exPm "NOPE" (by simp [exPm])

/-! ## Classification lemmas (C3, C10) -/

/-- The classification of a finalized holding by the sign of its quantity,
stated through the output holding's own fields. -/
theorem finalizeHolding_classifies (g : Holding) :
    (0 < (finalizeHolding g).quantity →
        (finalizeHolding g).status = "long"
          ∧ (finalizeHolding g).marketValue
              = (finalizeHolding g).quantity * (finalizeHolding g).currentPrice
          ∧ (finalizeHolding g).unrealizedGain
              = ((finalizeHolding g).currentPrice - (finalizeHolding g).avgCost)
                  * (finalizeHolding g).quantity)
      ∧ ((finalizeHolding g).quantity < 0 →
        (finalizeHolding g).status = "short"
          ∧ (finalizeHolding g).marketValue
              = (finalizeHolding g).quantity * (finalizeHolding g).currentPrice
          ∧ (finalizeHolding g).unrealizedGain
              = ((finalizeHolding g).avgCost - (finalizeHolding g).currentPrice)
                  * |(finalizeHolding g).quantity|)
      ∧ ((finalizeHolding g).quantity = 0 →
        (finalizeHolding g).status = "closed"
          ∧ (finalizeHolding g).avgCost = 0
          ∧ (finalizeHolding g).marketValue = 0
          ∧ (finalizeHolding g).unrealizedGain = 0) := by
  rcases lt_trichotomy g.quantity 0 with hlt | heq | hgt
  · have hnot : ¬ 0 < g.quantity := by linarith
    refine ⟨?_, ?_, ?_⟩ <;> intro hq <;>
      simp_all [finalizeHolding, hnot, hlt, not_lt_of_gt hlt]
  · have hnot : ¬ 0 < g.quantity := by rw [heq]; exact lt_irrefl 0
    have hnot2 : ¬ g.quantity < 0 := by rw [heq]; exact lt_irrefl 0
    refine ⟨?_, ?_, ?_⟩ <;> intro hq <;>
      simp_all [finalizeHolding, hnot, hnot2]
  · refine ⟨?_, ?_, ?_⟩ <;> intro hq <;>
      simp_all [finalizeHolding, hgt, not_lt_of_gt hgt]

/-- A finalized holding has status `"long"` exactly when its quantity is
strictly positive. -/
theorem finalizeHolding_long_iff (g : Holding) :
    (finalizeHolding g).status = "long" ↔ 0 < (finalizeHolding g).quantity := by
  rcases lt_trichotomy g.quantity 0 with hlt | heq | hgt
  · have hnot : ¬ 0 < g.quantity := by linarith
    simp [finalizeHolding, hnot, hlt, finalizeHolding_quantity]
  · have hnot : ¬ 0 < g.quantity := by rw [heq]; exact lt_irrefl 0
    have hnot2 : ¬ g.quantity < 0 := by rw [heq]; exact lt_irrefl 0
    simp [finalizeHolding, hnot, hnot2, heq]
  · simp [finalizeHolding, hgt]

/-- C3: every holding in the valuation output is classified by the sign of
its final quantity — positive gives `"long"` with
`unrealizedGain = (currentPrice − avgCost) × quantity` and
`marketValue = quantity × currentPrice`, negative gives `"short"` with
`unrealizedGain = (avgCost − currentPrice) × |quantity|`, zero gives
`"closed"` with `avgCost`, `marketValue` and `unrealizedGain` all zero; in
particular, buying 10 then selling 10 of the same asset yields one holding
with quantity 0, marketValue 0, unrealizedGain 0 and status `"closed"`. -/
theorem C3_classification :
    (∀ (items : List Item) (pm : String → Option AssetInfo) (h : Holding),
        h ∈ (computeSummary items pm).holdings →
        (0 < h.quantity →
            h.status = "long"
              ∧ h.marketValue = h.quantity * h.currentPrice
              ∧ h.unrealizedGain = (h.currentPrice - h.avgCost) * h.quantity)
          ∧ (h.quantity < 0 →
            h.status = "short"
              ∧ h.marketValue = h.quantity * h.currentPrice
              ∧ h.unrealizedGain = (h.avgCost - h.currentPrice) * |h.quantity|)
          ∧ (h.quantity = 0 →
            h.status = "closed"
              ∧ h.avgCost = 0
              ∧ h.marketValue = 0
              ∧ h.unrealizedGain = 0))
    ∧ (computeSummary [exBuy10, exSell10] exPm).holdings.map
        (fun h => (h.quantity, h.marketValue, h.unrealizedGain, h.status))
        = [(0, 0, 0, "closed")] := by
  constructor
  · intro items pm h hmem
    have hmem' : h ∈ (items.foldl (stepItem pm) ⟨[], 0⟩).holdings.map finalizeHolding := by
      simpa [computeSummary] using hmem
    obtain ⟨g, _, rfl⟩ := List.mem_map.mp hmem'
    exact finalizeHolding_classifies g
  · simp [computeSummary, stepItem, applyAt, applyItem, initHolding, finalizeHolding,
      exPm, exBuy10, exSell10, exAsset] <;> norm_num

/-- The closed holding that buy 10 / sell 10 produces. -/
def exClosedHolding : Holding := ⟨"AAPL", "Apple Inc.", "stock", 0, 0, 0, 12, 0, 0, "closed"⟩

/-- Witness for C3: the closed holding produced by buy 10 / sell 10. -/
theorem C3_classification_witness :
    (0 < exClosedHolding.quantity →
        exClosedHolding.status = "long"
          ∧ exClosedHolding.marketValue = exClosedHolding.quantity * exClosedHolding.currentPrice
          ∧ exClosedHolding.unrealizedGain
              = (exClosedHolding.currentPrice - exClosedHolding.avgCost) * exClosedHolding.quantity)
      ∧ (exClosedHolding.quantity < 0 →
        exClosedHolding.status = "short"
          ∧ exClosedHolding.marketValue = exClosedHolding.quantity * exClosedHolding.currentPrice
          ∧ exClosedHolding.unrealizedGain
              = (exClosedHolding.avgCost - exClosedHolding.currentPrice) * |exClosedHolding.quantity|)
      ∧ (exClosedHolding.quantity = 0 →
        exClosedHolding.status = "closed"
          ∧ exClosedHolding.avgCost = 0
          ∧ exClosedHolding.marketValue = 0
          ∧ exClosedHolding.unrealizedGain = 0) := by
  have hmem : exClosedHolding ∈ (computeSummary [exBuy10, exSell10] exPm).holdings := by
    simp [computeSummary, stepItem, applyAt, applyItem, initHolding, finalizeHolding,
      exPm, exBuy10, exSell10, exAsset, exClosedHolding] <;> norm_num
  exact C3_classification.1 [exBuy10, exSell10] exPm exClosedHolding hmem

/-- C10: `assetCount` counts exactly the holdings classified `"long"`
(strictly positive final quantity); a short position is excluded from
`assetCount` even though it contributes to `totalValue`, `totalCost` and
`unrealizedGain`, as the concrete short example shows. -/
theorem C10_assetCount_excludes_shorts :
    (∀ (items : List Item) (pm : String → Option AssetInfo),
        (computeSummary items pm).assetCount
          = ((computeSummary items pm).holdings.filter
              (fun h => h.status = "long")).length)
    ∧ (computeSummary [exSellShort] exPm).assetCount = 0
    ∧ (computeSummary [exSellShort] exPm).holdings.map
        (fun h => (h.quantity, h.status)) = [(-5, "short")]
    ∧ (computeSummary [exSellShort] exPm).totalValue = -60
    ∧ (computeSummary [exSellShort] exPm).totalCost = 50
    ∧ (computeSummary [exSellShort] exPm).unrealizedGain = -10 := by
  refine ⟨?_, ?_, ?_, ?_, ?_, ?_⟩
  · intro items pm
    have hcount : (computeSummary items pm).assetCount
        = (((items.foldl (stepItem pm) ⟨[], 0⟩).holdings.map finalizeHolding).filter
            (fun h => h.quantity > 0)).length := rfl
    have hhold : (computeSummary items pm).holdings
        = (items.foldl (stepItem pm) ⟨[], 0⟩).holdings.map finalizeHolding := rfl
    rw [hcount, hhold]
    congr 1
    apply List.filter_congr
    intro x hx
    obtain ⟨g, _, rfl⟩ := List.mem_map.mp hx
    exact decide_eq_decide.mpr (finalizeHolding_long_iff g).symm
  all_goals
    simp [computeSummary, stepItem, applyAt, applyItem, initHolding, finalizeHolding,
      exPm, exSellShort, exAsset] <;> norm_num

/-! ## Aggregate-totals lemmas (C4) -/

/-- The classification loop's accumulation, which skips zero-quantity
holdings, equals the sum of `f` over the non-closed holdings. -/
theorem foldl_skip_zero_sum (f : Holding → ℚ) :
    ∀ (l : List Holding) (a : ℚ),
      l.foldl (fun s h => if h.quantity = 0 then s else s + f h) a
        = a + ((l.filter (fun h => h.quantity ≠ 0)).map f).sum := by
  intro l
  induction l with
  | nil => intro a; simp
  | cons g gs ih =>
    intro a
    by_cases hg : g.quantity = 0
    · simp [hg, ih]
    · simp [hg, ih, add_assoc]

/-- A running accumulation is the initial value plus the sum. -/
theorem foldl_add_sum (f : Holding → ℚ) :
    ∀ (l : List Holding) (a : ℚ),
      l.foldl (fun s h => s + f h) a = a + (l.map f).sum := by
  intro l
  induction l with
  | nil => intro a; simp
  | cons g gs ih => intro a; simp [ih, add_assoc]

/-- Processing a run of buys of one priced asset code on a single-holding
state accumulates the quantities and amounts into that holding and leaves the
realized gain untouched. -/
theorem foldl_buys (pm : String → Option AssetInfo) (c : String) (a : AssetInfo)
    (hpm : pm c = some a) :
    ∀ (items : List Item) (h0 : Holding) (r : ℚ),
      h0.assetCode = c →
      (∀ j ∈ items, j.type = "buy" ∧ j.assetCode = c) →
      items.foldl (stepItem pm) ⟨[h0], r⟩
        = ⟨[{ h0 with quantity := h0.quantity + (items.map (fun j => j.quantity)).sum,
                      cost := h0.cost + (items.map (fun j => j.amount)).sum }], r⟩ := by
  intro items
  induction items with
  | nil => intro h0 r hc hall; simp
  | cons j js ih =>
    intro h0 r hc hall
    obtain ⟨hjt, hjc⟩ := hall j (List.mem_cons_self j js)
    have hstep : stepItem pm ⟨[h0], r⟩ j
        = ⟨[{ h0 with quantity := h0.quantity + j.quantity,
                      cost := h0.cost + j.amount }], r⟩ := by
      have hcode : h0.assetCode = j.assetCode := by rw [hc, hjc]
      simp [stepItem, hjc, hc, hpm, applyAt, applyItem, hjt, hcode]
    rw [List.foldl_cons, hstep,
      ih { h0 with quantity := h0.quantity + j.quantity, cost := h0.cost + j.amount }
        r hc (fun x hx => hall x (List.mem_cons_of_mem j hx))]
    simp [add_assoc]

/-- C4 (amended for the `toFixed(2)` rounding): `totalValue` is the sum of
`marketValue` over holdings with nonzero final quantity, `totalCost` the sum
of `|cost|` over those holdings, `totalGain = realizedGain + unrealizedGain`,
`totalGainPercent` is `0` when `totalCost = 0` and otherwise
`totalGain / totalCost × 100` rounded to two decimal places; and for a
portfolio consisting only of buy transactions of one priced asset (positive
quantities, nonnegative amounts), `realizedGain` is 0, `totalCost` is the sum
of the buy amounts, and the single holding's `marketValue` is the total
quantity times the current price. -/
theorem C4_totals :
    (∀ (items : List Item) (pm : String → Option AssetInfo),
        (computeSummary items pm).totalValue
            = (((computeSummary items pm).holdings.filter
                (fun h => h.quantity ≠ 0)).map (fun h => h.marketValue)).sum
          ∧ (computeSummary items pm).totalCost
            = (((computeSummary items pm).holdings.filter
                (fun h => h.quantity ≠ 0)).map (fun h => |h.cost|)).sum
          ∧ (computeSummary items pm).totalGain
            = (computeSummary items pm).realizedGain + (computeSummary items pm).unrealizedGain
          ∧ ((computeSummary items pm).totalCost = 0 →
              (computeSummary items pm).totalGainPercent = 0)
          ∧ (0 < (computeSummary items pm).totalCost →
              (computeSummary items pm).totalGainPercent
                = round2 ((computeSummary items pm).totalGain
                    / (computeSummary items pm).totalCost * 100)))
    ∧ (∀ (pm : String → Option AssetInfo) (c : String) (a : AssetInfo)
          (i : Item) (rest : List Item),
        pm c = some a →
        (∀ j ∈ i :: rest, j.type = "buy" ∧ j.assetCode = c ∧ 0 < j.quantity ∧ 0 ≤ j.amount) →
        (computeSummary (i :: rest) pm).realizedGain = 0
          ∧ (computeSummary (i :: rest) pm).totalCost
            = ((i :: rest).map (fun j => j.amount)).sum
          ∧ (computeSummary (i :: rest) pm).holdings.map (fun h => h.marketValue)
            = [((i :: rest).map (fun j => j.quantity)).sum * a.price]) := by
  constructor
  · intro items pm
    have hpercent : (computeSummary items pm).totalGainPercent
        = if 0 < (computeSummary items pm).totalCost then
            round2 ((computeSummary items pm).totalGain
              / (computeSummary items pm).totalCost * 100)
          else 0 := rfl
    refine ⟨?_, ?_, rfl, ?_, ?_⟩
    · show ((items.foldl (stepItem pm) ⟨[], 0⟩).holdings.map finalizeHolding).foldl
          (fun s h => if h.quantity = 0 then s else s + h.marketValue) 0 = _
      rw [foldl_skip_zero_sum]
      simp [computeSummary]
    · show (((items.foldl (stepItem pm) ⟨[], 0⟩).holdings.map finalizeHolding).filter
          (fun h => h.quantity ≠ 0)).foldl (fun s h => s + |h.cost|) 0 = _
      rw [foldl_add_sum]
      simp [computeSummary]
    · intro h0
      rw [hpercent, h0]
      simp
    · intro hpos
      rw [hpercent, if_pos hpos]
  · intro pm c a i rest hpm hall
    obtain ⟨hit, hic, hiq, hia⟩ := hall i (List.mem_cons_self i rest)
    have hstep : stepItem pm ⟨[], 0⟩ i
        = ⟨[⟨c, a.name, i.assetType, i.quantity, i.amount, 0, a.price, 0, 0, "closed"⟩], 0⟩ := by
      simp [stepItem, hic, hpm, applyAt, applyItem, initHolding, hit]
    have hfold : (i :: rest).foldl (stepItem pm) ⟨[], 0⟩
        = ⟨[⟨c, a.name, i.assetType,
              i.quantity + (rest.map (fun j => j.quantity)).sum,
              i.amount + (rest.map (fun j => j.amount)).sum,
              0, a.price, 0, 0, "closed"⟩], 0⟩ := by
      rw [List.foldl_cons, hstep,
        foldl_buys pm c a hpm rest _ 0 rfl
          (fun x hx => ⟨(hall x (List.mem_cons_of_mem i hx)).1,
                        (hall x (List.mem_cons_of_mem i hx)).2.1⟩)]
    have hqpos : 0 < i.quantity + (rest.map (fun j => j.quantity)).sum := by
      have : 0 ≤ (rest.map (fun j => j.quantity)).sum := by
        apply List.sum_nonneg
        intro x hx
        obtain ⟨j, hj, rfl⟩ := List.mem_map.mp hx
        exact le_of_lt (hall j (List.mem_cons_of_mem i hj)).2.2.1
      linarith
    have hann : 0 ≤ i.amount + (rest.map (fun j => j.amount)).sum := by
      have : 0 ≤ (rest.map (fun j => j.amount)).sum := by
        apply List.sum_nonneg
        intro x hx
        obtain ⟨j, hj, rfl⟩ := List.mem_map.mp hx
        exact (hall j (List.mem_cons_of_mem i hj)).2.2.2
      linarith
    refine ⟨?_, ?_, ?_⟩
    · show ((i :: rest).foldl (stepItem pm) ⟨[], 0⟩).realizedGain = 0
      rw [hfold]
    · show ((((i :: rest).foldl (stepItem pm) ⟨[], 0⟩).holdings.map finalizeHolding).filter
          (fun h => h.quantity ≠ 0)).foldl (fun s h => s + |h.cost|) 0 = _
      rw [hfold]
      have hne : i.quantity + (rest.map (fun j => j.quantity)).sum ≠ 0 := ne_of_gt hqpos
      simp [finalizeHolding, hqpos, finalizeHolding_quantity, hne,
        abs_of_nonneg hann]
    · show (((i :: rest).foldl (stepItem pm) ⟨[], 0⟩).holdings.map finalizeHolding).map
          (fun h => h.marketValue) = _
      rw [hfold]
      simp [finalizeHolding, hqpos]

/-- An asset at current price 301 used by the C4 counterexample. -/
def cexAsset : AssetInfo := ⟨"ACME", "Acme Corp.", "stock", 301, [300, 301], [1, 2]⟩

/-- An asset map holding only `cexAsset`. -/
def cexPm : String → Option AssetInfo := fun c => if c = "ACME" then some cexAsset else none

/-- Buy 3 units of ACME for 900 total. -/
def cexBuy : Item := ⟨"ACME", "stock", "buy", 3, 900⟩

/-- An asset at current price 799 used by the negative-tie example. -/
def negAsset : AssetInfo := ⟨"NEG", "Neg Corp.", "stock", 799, [800, 799], [1, 2]⟩

/-- An asset map holding only `negAsset`. -/
def negPm : String → Option AssetInfo := fun c => if c = "NEG" then some negAsset else none

/-- Buy 1 unit of NEG for 800 total. -/
def negBuy : Item := ⟨"NEG", "stock", "buy", 1, 800⟩

/-- Counterexample for C4 as stated: for a buy of 3 units at 900 with current
price 301, `totalGain / totalCost × 100` is `1/3`, but the route's
`totalGainPercent` is the `toFixed(2)` rounding `33/100`, not `1/3`.  The
negative tie is also exercised: a buy of 1 unit at 800 with current price 799
makes the exact percentage `-1/8`, and the route's `toFixed(2)` (sign first,
tie to the larger magnitude) returns `-13/100`. -/
theorem C4_totals_cex :
    (computeSummary [cexBuy] cexPm).totalGain
        / (computeSummary [cexBuy] cexPm).totalCost * 100 = 1/3
      ∧ (computeSummary [cexBuy] cexPm).totalGainPercent = 33/100
      ∧ (33 : ℚ)/100 ≠ 1/3
      ∧ (computeSummary [negBuy] negPm).totalGain
          / (computeSummary [negBuy] negPm).totalCost * 100 = -(1/8)
      ∧ (computeSummary [negBuy] negPm).totalGainPercent = -(13/100) := by
  refine ⟨?_, ?_, by norm_num, ?_, ?_⟩ <;>
    simp [computeSummary, stepItem, applyAt, applyItem, initHolding, finalizeHolding,
      cexPm, cexBuy, cexAsset, negPm, negBuy, negAsset, round2, Rat.floor] <;> norm_num

/-- Witness for C4: the buy-only clause applied to the single buy of 10 units
at 100 total with current price 12. -/
theorem C4_totals_witness :
    (computeSummary [exBuy10] exPm).realizedGain = 0
      ∧ (computeSummary [exBuy10] exPm).totalCost = ([exBuy10].map (fun j => j.amount)).sum
      ∧ (computeSummary [exBuy10] exPm).holdings.map (fun h => h.marketValue)
        = [([exBuy10].map (fun j => j.quantity)).sum * exAsset.price] :=
  C4_totals.2 exPm "AAPL" exAsset exBuy10 []
    (by simp [exPm])
    (by intro j hj
        simp only [List.mem_singleton] at hj
        subst hj
        refine ⟨rfl, rfl, by norm_num [exBuy10], by norm_num [exBuy10]⟩)

/-! ## Net-worth series lemmas (C5) -/

/-- The `maxDateArr` fold yields a list at least as long as every candidate
and as the start value, and is either the start value or one of the
candidates' date arrays. -/
theorem foldl_longest (l : List AssetInfo) :
    ∀ acc : List Nat,
      (∀ a ∈ l,
          a.dateArr.length
            ≤ (l.foldl (fun acc a =>
                if acc.length < a.dateArr.length then a.dateArr else acc) acc).length)
        ∧ acc.length
            ≤ (l.foldl (fun acc a =>
                if acc.length < a.dateArr.length then a.dateArr else acc) acc).length
        ∧ ((l.foldl (fun acc a =>
              if acc.length < a.dateArr.length then a.dateArr else acc) acc) = acc
            ∨ (l.foldl (fun acc a =>
              if acc.length < a.dateArr.length then a.dateArr else acc) acc)
              ∈ l.map (fun a => a.dateArr)) := by
  induction l with
  | nil => intro acc; exact ⟨by intro a ha; simp at ha, le_refl _, Or.inl rfl⟩
  | cons b l ih =>
    intro acc
    simp only [List.foldl_cons, List.map_cons]
    obtain ⟨h1, h2, h3⟩ := ih (if acc.length < b.dateArr.length then b.dateArr else acc)
    have hb : b.dateArr.length
        ≤ (if acc.length < b.dateArr.length then b.dateArr else acc).length := by
      by_cases hlt : acc.length < b.dateArr.length
      · rw [if_pos hlt]
      · rw [if_neg hlt]; exact le_of_not_lt hlt
    have hacc : acc.length
        ≤ (if acc.length < b.dateArr.length then b.dateArr else acc).length := by
      by_cases hlt : acc.length < b.dateArr.length
      · rw [if_pos hlt]; exact le_of_lt hlt
      · rw [if_neg hlt]
    refine ⟨?_, le_trans hacc h2, ?_⟩
    · intro a ha
      rcases List.mem_cons.mp ha with rfl | ha
      · exact le_trans hb h2
      · exact h1 a ha
    · rcases h3 with h3 | h3
      · by_cases hlt : acc.length < b.dateArr.length
        · right
          rw [h3, if_pos hlt]
          exact List.mem_cons_self _ _
        · left
          rw [h3, if_neg hlt]
      · right
        exact List.mem_cons_of_mem _ h3

/-- The inner `totalValue` accumulation equals the sum over the items whose
asset has a price at the index (`historyPriceArr?.[idx] || 0` contributes `0`
exactly when the index is out of range). -/
theorem foldl_value_eq_sum (idx : Nat) :
    ∀ (l : List RItem) (acc : ℚ),
      l.foldl (rValueStep idx) acc = acc + (l.filterMap (specContrib idx)).sum := by
  intro l
  induction l with
  | nil => intro acc; simp
  | cons it l ih =>
    intro acc
    rw [List.foldl_cons, List.filterMap_cons]
    cases hinfo : it.assetInfo with
    | none =>
      have hs : rValueStep idx acc it = acc := by simp [rValueStep, hinfo]
      have hc : specContrib idx it = none := by simp [specContrib, hinfo]
      rw [hs, hc, ih]
    | some a =>
      cases hget : a.historyPriceArr.get? idx with
      | none =>
        have hgd : a.historyPriceArr[idx]?.getD 0 = 0 := by
          rw [← List.get?_eq_getElem?, hget]
          rfl
        have hs : rValueStep idx acc it = acc := by
          simp [rValueStep, hinfo, hgd]
        have hc : specContrib idx it = none := by
          simp only [specContrib, hinfo, Option.some_bind, hget, Option.map_none']
        rw [hs, hc, ih]
      | some pr =>
        have hgd : a.historyPriceArr[idx]?.getD 0 = pr := by
          rw [← List.get?_eq_getElem?, hget]
          rfl
        have hs : rValueStep idx acc it = acc + pr * it.quantity := by
          simp [rValueStep, hinfo, hgd]
        have hc : specContrib idx it = some (pr * it.quantity) := by
          simp only [specContrib, hinfo, Option.some_bind, hget, Option.map_some']
        rw [hs, hc, ih]
        simp [add_assoc]

/-- The route's per-index portfolio value is the spec's sum. -/
theorem portfolioValueAt_eq_spec (p : RPortfolio) (idx : Nat) :
    portfolioValueAt p idx = specValueAt p idx := by
  unfold portfolioValueAt specValueAt
  rw [foldl_value_eq_sum]
  simp

/-- An object write either keeps an entry or puts the written pair. -/
theorem objInsert_provenance (key : String) (v : List (Nat × ℚ))
    (obj : List (String × List (Nat × ℚ))) :
    ∀ e ∈ objInsert key v obj, e ∈ obj ∨ e = (key, v) := by
  intro e he
  unfold objInsert at he
  by_cases hany : obj.any (fun e => e.1 == key)
  · rw [if_pos hany] at he
    obtain ⟨e2, he2, heq⟩ := List.mem_map.mp he
    by_cases hk : e2.1 = key
    · rw [if_pos hk] at heq
      exact Or.inr heq.symm
    · rw [if_neg hk] at heq
      exact Or.inl (heq ▸ he2)
  · rw [if_neg hany] at he
    rcases List.mem_append.mp he with he | he
    · exact Or.inl he
    · exact Or.inr (List.mem_singleton.mp he)

/-- An object write keeps the keys free of duplicates. -/
theorem objInsert_keysNodup (key : String) (v : List (Nat × ℚ))
    (obj : List (String × List (Nat × ℚ)))
    (h : (obj.map (fun e => e.1)).Nodup) :
    ((objInsert key v obj).map (fun e => e.1)).Nodup := by
  unfold objInsert
  by_cases hany : obj.any (fun e => e.1 == key)
  · rw [if_pos hany]
    have hkeys : ((obj.map (fun e => if e.1 = key then (key, v) else e)).map
        (fun e => e.1)) = obj.map (fun e => e.1) := by
      rw [List.map_map]
      apply List.map_congr_left
      intro e _
      by_cases hk : e.1 = key
      · simp [hk]
      · simp [hk]
    rw [hkeys]
    exact h
  · rw [if_neg hany]
    have hnot : key ∉ obj.map (fun e => e.1) := by
      intro hmem
      obtain ⟨e, he, hkey⟩ := List.mem_map.mp hmem
      have : obj.any (fun e => e.1 == key) = true :=
        List.any_eq_true.mpr ⟨e, he, by simp [hkey]⟩
      exact hany this
    simp [List.nodup_append, h, hnot]

/-- After an object write, the written key has an entry. -/
theorem objInsert_key_mem (key : String) (v : List (Nat × ℚ))
    (obj : List (String × List (Nat × ℚ))) :
    ∃ e ∈ objInsert key v obj, e.1 = key := by
  unfold objInsert
  by_cases hany : obj.any (fun e => e.1 == key)
  · rw [if_pos hany]
    obtain ⟨e, he, hkey⟩ := List.any_eq_true.mp hany
    have hkey' : e.1 = key := by simpa using hkey
    exact ⟨(key, v), List.mem_map.mpr ⟨e, he, by rw [if_pos hkey']⟩, rfl⟩
  · rw [if_neg hany]
    exact ⟨(key, v), List.mem_append_right _ (List.mem_singleton.mpr rfl), rfl⟩

/-- An object write never removes a key. -/
theorem objInsert_key_persist (key : String) (v : List (Nat × ℚ))
    (obj : List (String × List (Nat × ℚ))) (m : String)
    (hex : ∃ e ∈ obj, e.1 = m) :
    ∃ e ∈ objInsert key v obj, e.1 = m := by
  obtain ⟨e, he, hkey⟩ := hex
  unfold objInsert
  by_cases hany : obj.any (fun e => e.1 == key)
  · rw [if_pos hany]
    by_cases hk : e.1 = key
    · exact ⟨(key, v), List.mem_map.mpr ⟨e, he, by rw [if_pos hk]⟩, by rw [← hk, hkey]⟩
    · exact ⟨e, List.mem_map.mpr ⟨e, he, by rw [if_neg hk]⟩, hkey⟩
  · rw [if_neg hany]
    exact ⟨e, List.mem_append_left _ he, hkey⟩

/-- Every entry of the folded result object is a start entry or the series of
one of the portfolios. -/
theorem foldl_obj_provenance (f : RPortfolio → List (Nat × ℚ)) :
    ∀ (ps : List RPortfolio) (acc : List (String × List (Nat × ℚ))),
      ∀ e ∈ ps.foldl (fun r p => objInsert p.name (f p) r) acc,
        e ∈ acc ∨ ∃ p ∈ ps, e = (p.name, f p) := by
  intro ps
  induction ps with
  | nil => intro acc e he; exact Or.inl he
  | cons p ps' ih =>
    intro acc e he
    rw [List.foldl_cons] at he
    rcases ih (objInsert p.name (f p) acc) e he with hacc | ⟨q, hq, heq⟩
    · rcases objInsert_provenance p.name (f p) acc e hacc with h | h
      · exact Or.inl h
      · exact Or.inr ⟨p, List.mem_cons_self p ps', h⟩
    · exact Or.inr ⟨q, List.mem_cons_of_mem p hq, heq⟩

/-- The folded result object keeps its keys free of duplicates. -/
theorem foldl_obj_keysNodup (f : RPortfolio → List (Nat × ℚ)) :
    ∀ (ps : List RPortfolio) (acc : List (String × List (Nat × ℚ))),
      (acc.map (fun e => e.1)).Nodup →
      (((ps.foldl (fun r p => objInsert p.name (f p) r) acc)).map (fun e => e.1)).Nodup := by
  intro ps
  induction ps with
  | nil => intro acc h; exact h
  | cons p ps' ih =>
    intro acc h
    rw [List.foldl_cons]
    exact ih _ (objInsert_keysNodup p.name (f p) acc h)

/-- A key present in the accumulator stays present through the fold. -/
theorem foldl_obj_key_persist (f : RPortfolio → List (Nat × ℚ)) :
    ∀ (ps : List RPortfolio) (acc : List (String × List (Nat × ℚ))) (m : String),
      (∃ e ∈ acc, e.1 = m) →
      ∃ e ∈ ps.foldl (fun r p => objInsert p.name (f p) r) acc, e.1 = m := by
  intro ps
  induction ps with
  | nil => intro acc m hex; exact hex
  | cons p ps' ih =>
    intro acc m hex
    rw [List.foldl_cons]
    exact ih _ m (objInsert_key_persist p.name (f p) acc m hex)

/-- Every processed portfolio's name has an entry in the folded result. -/
theorem foldl_obj_presence (f : RPortfolio → List (Nat × ℚ)) :
    ∀ (ps : List RPortfolio) (acc : List (String × List (Nat × ℚ))),
      ∀ p ∈ ps, ∃ e ∈ ps.foldl (fun r p => objInsert p.name (f p) r) acc, e.1 = p.name := by
  intro ps
  induction ps with
  | nil => intro acc p hp; simp at hp
  | cons q ps' ih =>
    intro acc p hp
    rw [List.foldl_cons]
    rcases List.mem_cons.mp hp with rfl | hp
    · exact foldl_obj_key_persist f ps' _ p.name (objInsert_key_mem p.name (f p) acc)
    · exact ih _ p hp

/-- When the portfolio names are pairwise distinct, the result object is
exactly one appended entry per portfolio. -/
theorem foldl_obj_distinct (f : RPortfolio → List (Nat × ℚ)) :
    ∀ (ps : List RPortfolio) (acc : List (String × List (Nat × ℚ))),
      (acc.map (fun e => e.1) ++ ps.map (fun p => p.name)).Nodup →
      ps.foldl (fun r p => objInsert p.name (f p) r) acc
        = acc ++ ps.map (fun p => (p.name, f p)) := by
  intro ps
  induction ps with
  | nil => intro acc _; simp
  | cons p ps' ih =>
    intro acc hnodup
    have hnot : p.name ∉ acc.map (fun e => e.1) := by
      intro hmem
      rw [List.nodup_append] at hnodup
      exact hnodup.2.2 hmem (by simp)
    have hany : acc.any (fun e => e.1 == p.name) = false := by
      rw [List.any_eq_false]
      intro e he hbeq
      exact hnot (List.mem_map.mpr ⟨e, he, by simpa using hbeq⟩)
    have hstep : objInsert p.name (f p) acc = acc ++ [(p.name, f p)] := by
      unfold objInsert
      rw [hany]
      simp
    rw [List.foldl_cons, hstep, ih (acc ++ [(p.name, f p)]) ?_]
    · simp
    · simpa using hnodup

/-- C5 (amended for the `toFixed(2)` rounding and the result-object keying):
the common time axis is a longest date sequence among the assets referenced
by the portfolios' buy transactions; each series value is the sum of
`price[index] × quantity` over the buy items whose asset has a price at that
index, rounded to two decimals; the result object holds one series per
distinct portfolio name (same-named portfolios collapse, last write wins), so
when the names are pairwise distinct it is exactly one series per portfolio
keyed by its name; every entry is some portfolio's series, every portfolio's
name is a key, and every series has the axis's length. -/
theorem C5_net_worth_series (ps : List RPortfolio) :
    (∀ a ∈ referencedAssets ps, a.dateArr.length ≤ (selectAxis ps).length)
      ∧ (selectAxis ps = [] ∨ selectAxis ps ∈ (referencedAssets ps).map (fun a => a.dateArr))
      ∧ ((ps.map (fun p => p.name)).Nodup →
          buildNetWorthSeries ps
            = ps.map (fun p =>
                (p.name,
                 (selectAxis ps).enum.map (fun e => (e.2, round2 (specValueAt p e.1))))))
      ∧ ((buildNetWorthSeries ps).map (fun e => e.1)).Nodup
      ∧ (∀ e ∈ buildNetWorthSeries ps, ∃ p ∈ ps,
          e = (p.name,
               (selectAxis ps).enum.map (fun e2 => (e2.2, round2 (specValueAt p e2.1)))))
      ∧ (∀ p ∈ ps, ∃ e ∈ buildNetWorthSeries ps, e.1 = p.name)
      ∧ (∀ e ∈ buildNetWorthSeries ps, e.2.length = (selectAxis ps).length) := by
  have hbuild : buildNetWorthSeries ps
      = ps.foldl (fun r p =>
          objInsert p.name
            ((selectAxis ps).enum.map (fun e => (e.2, round2 (specValueAt p e.1)))) r)
        [] := by
    unfold buildNetWorthSeries
    simp only [portfolioValueAt_eq_spec]
  obtain ⟨h1, _, h3⟩ := foldl_longest (referencedAssets ps) []
  refine ⟨h1, ?_, ?_, ?_, ?_, ?_, ?_⟩
  · rcases h3 with h3 | h3
    · exact Or.inl h3
    · exact Or.inr h3
  · intro hdist
    rw [hbuild, foldl_obj_distinct _ ps [] (by simpa using hdist)]
    simp
  · rw [hbuild]
    exact foldl_obj_keysNodup _ ps [] (by simp)
  · intro e he
    rw [hbuild] at he
    rcases foldl_obj_provenance _ ps [] e he with h | h
    · simp at h
    · exact h
  · intro p hp
    rw [hbuild]
    exact foldl_obj_presence _ ps [] p hp
  · intro e he
    rw [hbuild] at he
    rcases foldl_obj_provenance _ ps [] e he with h | ⟨p, _, rfl⟩
    · simp at h
    · simp [List.enum_length]

/-- An asset whose only price, `1/8`, is not representable at two decimals. -/
def rAsset : AssetInfo := ⟨"XEQ", "X Equity", "stock", 1, [1/8], [7]⟩

/-- A portfolio holding one unit of `rAsset` through a single buy. -/
def exRPort : RPortfolio := ⟨"P", [⟨"buy", 1, some rAsset⟩]⟩

/-- A second portfolio with the same name holding two units of `rAsset`. -/
def exRPort2 : RPortfolio := ⟨"P", [⟨"buy", 2, some rAsset⟩]⟩

/-- Counterexample for C5 as stated: the series value for one unit of an
asset priced `1/8` is the rounded `13/100`, not the sum `1/8`; and two
portfolios sharing the name "P" produce a single collapsed entry (the later
portfolio's series), not one series per portfolio. -/
theorem C5_net_worth_series_cex :
    buildNetWorthSeries [exRPort] = [("P", [(7, 13/100)])]
      ∧ specValueAt exRPort 0 = 1/8
      ∧ (13 : ℚ)/100 ≠ 1/8
      ∧ buildNetWorthSeries [exRPort, exRPort2] = [("P", [(7, 25/100)])]
      ∧ (buildNetWorthSeries [exRPort, exRPort2]).length = 1
      ∧ [exRPort, exRPort2].length = 2 := by
  refine ⟨?_, ?_, by norm_num, ?_, ?_, rfl⟩ <;>
    simp [buildNetWorthSeries, objInsert, selectAxis, referencedAssets, buyItems,
      portfolioValueAt, specValueAt, rValueStep, specContrib, exRPort, exRPort2,
      rAsset, round2, Rat.floor, List.enum] <;> norm_num

/-- Witness for C5 at the concrete one-portfolio input. -/
theorem C5_net_worth_series_witness :
    (∀ a ∈ referencedAssets [exRPort], a.dateArr.length ≤ (selectAxis [exRPort]).length)
      ∧ (selectAxis [exRPort] = []
          ∨ selectAxis [exRPort] ∈ (referencedAssets [exRPort]).map (fun a => a.dateArr))
      ∧ (([exRPort].map (fun p => p.name)).Nodup →
          buildNetWorthSeries [exRPort]
            = [exRPort].map (fun p =>
                (p.name,
                 (selectAxis [exRPort]).enum.map
                   (fun e => (e.2, round2 (specValueAt p e.1))))))
      ∧ ((buildNetWorthSeries [exRPort]).map (fun e => e.1)).Nodup
      ∧ (∀ e ∈ buildNetWorthSeries [exRPort], ∃ p ∈ [exRPort],
          e = (p.name,
               (selectAxis [exRPort]).enum.map
                 (fun e2 => (e2.2, round2 (specValueAt p e2.1)))))
      ∧ (∀ p ∈ [exRPort], ∃ e ∈ buildNetWorthSeries [exRPort], e.1 = p.name)
      ∧ (∀ e ∈ buildNetWorthSeries [exRPort], e.2.length = (selectAxis [exRPort]).length) :=
  C5_net_worth_series [exRPort]

/-! ## Monthly-profit lemmas (C6) -/

/-- One retained-table step keeps the month keys free of duplicates. -/
theorem retainStep_keysNodup (monthOf : Nat → Nat) (ty : String)
    (acc : List (Nat × Nat × ℚ)) (log : PLog)
    (h : (acc.map (fun e => e.1)).Nodup) :
    ((retainStep monthOf ty acc log).map (fun e => e.1)).Nodup := by
  by_cases hty : log.assetType = some ty
  · cases hfind : acc.find? (fun e => e.1 == monthOf log.date) with
    | none =>
      have hform : retainStep monthOf ty acc log
          = acc ++ [(monthOf log.date, log.date, log.value)] := by
        simp [retainStep, hty, hfind]
      have hnot : monthOf log.date ∉ acc.map (fun e => e.1) := by
        intro hmem
        obtain ⟨e, he, hkey⟩ := List.mem_map.mp hmem
        have := List.find?_eq_none.mp hfind e he
        simp [hkey] at this
      rw [hform]
      simp [List.nodup_append, h, hnot]
    | some e0 =>
      by_cases hlt : e0.2.1 < log.date
      · have hform : retainStep monthOf ty acc log
            = acc.map (fun e2 =>
                if e2.1 = monthOf log.date then (monthOf log.date, log.date, log.value)
                else e2) := by
          simp [retainStep, hty, hfind, hlt]
        have hkeys : (acc.map (fun e2 =>
            if e2.1 = monthOf log.date then (monthOf log.date, log.date, log.value)
            else e2)).map (fun e => e.1) = acc.map (fun e => e.1) := by
          rw [List.map_map]
          apply List.map_congr_left
          intro e2 _
          by_cases he2 : e2.1 = monthOf log.date
          · simp [he2]
          · simp [he2]
        rw [hform, hkeys]
        exact h
      · have hform : retainStep monthOf ty acc log = acc := by
          simp [retainStep, hty, hfind, hlt]
        rw [hform]
        exact h
  · have hform : retainStep monthOf ty acc log = acc := by simp [retainStep, hty]
    rw [hform]
    exact h

/-- Folding the retained table keeps the month keys free of duplicates. -/
theorem retain_keysNodup (monthOf : Nat → Nat) (ty : String) :
    ∀ (logs : List PLog) (acc : List (Nat × Nat × ℚ)),
      (acc.map (fun e => e.1)).Nodup →
      ((logs.foldl (retainStep monthOf ty) acc).map (fun e => e.1)).Nodup := by
  intro logs
  induction logs with
  | nil => intro acc h; exact h
  | cons lg ls ih =>
    intro acc h
    rw [List.foldl_cons]
    exact ih _ (retainStep_keysNodup monthOf ty acc lg h)

/-- Every entry a retained-table step produces is an old entry or comes from
the processed log. -/
theorem retainStep_provenance (monthOf : Nat → Nat) (ty : String)
    (acc : List (Nat × Nat × ℚ)) (log : PLog) :
    ∀ e ∈ retainStep monthOf ty acc log,
      e ∈ acc ∨ (log.assetType = some ty
        ∧ e = (monthOf log.date, log.date, log.value)) := by
  intro e he
  by_cases hty : log.assetType = some ty
  · cases hfind : acc.find? (fun e => e.1 == monthOf log.date) with
    | none =>
      have hform : retainStep monthOf ty acc log
          = acc ++ [(monthOf log.date, log.date, log.value)] := by
        simp [retainStep, hty, hfind]
      rw [hform] at he
      rcases List.mem_append.mp he with he | he
      · exact Or.inl he
      · exact Or.inr ⟨hty, List.mem_singleton.mp he⟩
    | some e0 =>
      by_cases hlt : e0.2.1 < log.date
      · have hform : retainStep monthOf ty acc log
            = acc.map (fun e2 =>
                if e2.1 = monthOf log.date then (monthOf log.date, log.date, log.value)
                else e2) := by
          simp [retainStep, hty, hfind, hlt]
        rw [hform] at he
        obtain ⟨e2, he2, heq⟩ := List.mem_map.mp he
        by_cases hk : e2.1 = monthOf log.date
        · rw [if_pos hk] at heq
          exact Or.inr ⟨hty, heq.symm⟩
        · rw [if_neg hk] at heq
          exact Or.inl (heq ▸ he2)
      · have hform : retainStep monthOf ty acc log = acc := by
          simp [retainStep, hty, hfind, hlt]
        rw [hform] at he
        exact Or.inl he
  · have hform : retainStep monthOf ty acc log = acc := by simp [retainStep, hty]
    rw [hform] at he
    exact Or.inl he

/-- Every entry of the folded retained table is an entry of the start table
or comes from one of the processed logs of the matching type. -/
theorem retain_provenance (monthOf : Nat → Nat) (ty : String) :
    ∀ (logs : List PLog) (acc : List (Nat × Nat × ℚ)),
      ∀ e ∈ logs.foldl (retainStep monthOf ty) acc,
        e ∈ acc ∨ ∃ log ∈ logs, log.assetType = some ty
          ∧ e = (monthOf log.date, log.date, log.value) := by
  intro logs
  induction logs with
  | nil => intro acc e he; exact Or.inl he
  | cons lg ls ih =>
    intro acc e he
    rw [List.foldl_cons] at he
    rcases ih (retainStep monthOf ty acc lg) e he with hacc | ⟨log, hlog, hty2, heq⟩
    · rcases retainStep_provenance monthOf ty acc lg e hacc with h | ⟨hty2, heq⟩
      · exact Or.inl h
      · exact Or.inr ⟨lg, List.mem_cons_self lg ls, hty2, heq⟩
    · exact Or.inr ⟨log, List.mem_cons_of_mem lg hlog, hty2, heq⟩

/-- A retained-table step never lowers the retained date of a month: an entry
for month `m` with date at least `d` survives (possibly replaced by a
later-dated one).  Needs distinct month keys to identify the compared entry. -/
theorem retainStep_persist (monthOf : Nat → Nat) (ty : String)
    (acc : List (Nat × Nat × ℚ)) (log : PLog) (m d : Nat)
    (hnodup : (acc.map (fun e => e.1)).Nodup)
    (hex : ∃ e ∈ acc, e.1 = m ∧ d ≤ e.2.1) :
    ∃ e ∈ retainStep monthOf ty acc log, e.1 = m ∧ d ≤ e.2.1 := by
  obtain ⟨e, he, hkey, hd⟩ := hex
  by_cases hty : log.assetType = some ty
  · cases hfind : acc.find? (fun e => e.1 == monthOf log.date) with
    | none =>
      have hform : retainStep monthOf ty acc log
          = acc ++ [(monthOf log.date, log.date, log.value)] := by
        simp [retainStep, hty, hfind]
      refine ⟨e, ?_, hkey, hd⟩
      rw [hform]
      exact List.mem_append_left _ he
    | some e0 =>
      by_cases hlt : e0.2.1 < log.date
      · have hform : retainStep monthOf ty acc log
            = acc.map (fun e2 =>
                if e2.1 = monthOf log.date then (monthOf log.date, log.date, log.value)
                else e2) := by
          simp [retainStep, hty, hfind, hlt]
        by_cases hk : e.1 = monthOf log.date
        · have he0mem := List.mem_of_find?_eq_some hfind
          have he0key := List.find?_some hfind
          have he0key' : e0.1 = monthOf log.date := by simpa using he0key
          have heq : e = e0 :=
            List.inj_on_of_nodup_map hnodup he he0mem (by rw [hk, he0key'])
          have hdle : d ≤ log.date := by
            have hde0 : d ≤ e0.2.1 := heq ▸ hd
            omega
          refine ⟨(monthOf log.date, log.date, log.value), ?_, ?_, hdle⟩
          · rw [hform]
            exact List.mem_map.mpr ⟨e, he, by rw [if_pos hk]⟩
          · rw [← hk, hkey]
        · refine ⟨e, ?_, hkey, hd⟩
          rw [hform]
          exact List.mem_map.mpr ⟨e, he, by rw [if_neg hk]⟩
      · have hform : retainStep monthOf ty acc log = acc := by
          simp [retainStep, hty, hfind, hlt]
        refine ⟨e, ?_, hkey, hd⟩
        rw [hform]
        exact he
  · have hform : retainStep monthOf ty acc log = acc := by simp [retainStep, hty]
    refine ⟨e, ?_, hkey, hd⟩
    rw [hform]
    exact he

/-- Folding logs never lowers the retained date of a month. -/
theorem retain_persist (monthOf : Nat → Nat) (ty : String) :
    ∀ (logs : List PLog) (acc : List (Nat × Nat × ℚ)) (m d : Nat),
      (acc.map (fun e => e.1)).Nodup →
      (∃ e ∈ acc, e.1 = m ∧ d ≤ e.2.1) →
      ∃ e ∈ logs.foldl (retainStep monthOf ty) acc, e.1 = m ∧ d ≤ e.2.1 := by
  intro logs
  induction logs with
  | nil => intro acc m d _ hex; exact hex
  | cons lg ls ih =>
    intro acc m d hnodup hex
    rw [List.foldl_cons]
    exact ih _ m d (retainStep_keysNodup monthOf ty acc lg hnodup)
      (retainStep_persist monthOf ty acc lg m d hnodup hex)

/-- Processing a log of the matching type leaves an entry for its month whose
date is at least the log's. -/
theorem retainStep_entry (monthOf : Nat → Nat) (ty : String)
    (acc : List (Nat × Nat × ℚ)) (log : PLog) (hty : log.assetType = some ty) :
    ∃ e ∈ retainStep monthOf ty acc log, e.1 = monthOf log.date ∧ log.date ≤ e.2.1 := by
  cases hfind : acc.find? (fun e => e.1 == monthOf log.date) with
  | none =>
    have hform : retainStep monthOf ty acc log
        = acc ++ [(monthOf log.date, log.date, log.value)] := by
      simp [retainStep, hty, hfind]
    refine ⟨(monthOf log.date, log.date, log.value), ?_, rfl, le_refl _⟩
    rw [hform]
    exact List.mem_append_right _ (List.mem_singleton.mpr rfl)
  | some e0 =>
    have he0mem := List.mem_of_find?_eq_some hfind
    have he0key : e0.1 = monthOf log.date := by
      have hb := List.find?_some hfind
      simpa using hb
    by_cases hlt : e0.2.1 < log.date
    · have hform : retainStep monthOf ty acc log
          = acc.map (fun e2 =>
              if e2.1 = monthOf log.date then (monthOf log.date, log.date, log.value)
              else e2) := by
        simp [retainStep, hty, hfind, hlt]
      refine ⟨(monthOf log.date, log.date, log.value), ?_, rfl, le_refl _⟩
      rw [hform]
      exact List.mem_map.mpr ⟨e0, he0mem, by rw [if_pos he0key]⟩
    · have hform : retainStep monthOf ty acc log = acc := by
        simp [retainStep, hty, hfind, hlt]
      refine ⟨e0, ?_, he0key, le_of_not_lt hlt⟩
      rw [hform]
      exact he0mem

/-- The retained entry of a month carries a date at least as late as every
processed log of the matching type within that month. -/
theorem retain_latest (monthOf : Nat → Nat) (ty : String) :
    ∀ (logs : List PLog) (acc : List (Nat × Nat × ℚ)),
      (acc.map (fun e => e.1)).Nodup →
      ∀ log ∈ logs, log.assetType = some ty →
      ∀ e ∈ logs.foldl (retainStep monthOf ty) acc,
        e.1 = monthOf log.date → log.date ≤ e.2.1 := by
  intro logs
  induction logs with
  | nil => intro acc _ log hlog; simp at hlog
  | cons lg ls ih =>
    intro acc hnodup log hlog hty e he hkey
    rw [List.foldl_cons] at he
    have hnodup' := retainStep_keysNodup monthOf ty acc lg hnodup
    rcases List.mem_cons.mp hlog with rfl | hmem
    · obtain ⟨e1, he1, hk1, hd1⟩ := retainStep_entry monthOf ty acc log hty
      obtain ⟨e2, he2, hk2, hd2⟩ :=
        retain_persist monthOf ty ls (retainStep monthOf ty acc log)
          (monthOf log.date) log.date hnodup' ⟨e1, he1, hk1, hd1⟩
      have hfin := retain_keysNodup monthOf ty ls _ hnodup'
      have : e = e2 := List.inj_on_of_nodup_map hfin he he2 (by rw [hkey, hk2])
      rw [this]
      exact hd2
    · exact ih (retainStep monthOf ty acc lg) hnodup' log hmem hty e he hkey

/-- C6: in the monthly profit computation, every retained `(month, date,
value)` entry comes from an actually processed log of that asset type whose
date maps to that month, and its date is the latest among that type's logs of
the month (a later log replaces the stored pair only when strictly
later-dated); the profit at index `i ≥ 1` is the retained value of month `i`
minus the retained value of month `i − 1` (both defaulting to 0), the first
month's profit is always 0, and monthly values `[1000, 1100, 1050]` over 3
consecutive months give profits `[0, 100, -50]`. -/
theorem C6_monthly_profit :
    (∀ (monthOf : Nat → Nat) (ty : String) (logs : List PLog) (e : Nat × Nat × ℚ),
        e ∈ monthlyValue monthOf ty logs →
          (∃ log ∈ logs, log.assetType = some ty
            ∧ monthOf log.date = e.1 ∧ log.date = e.2.1 ∧ log.value = e.2.2)
          ∧ ∀ log ∈ logs, log.assetType = some ty →
              monthOf log.date = e.1 → log.date ≤ e.2.1)
    ∧ (∀ (monthOf : Nat → Nat) (ty : String) (logs : List PLog)
          (labels : List Nat) (i : Nat), 0 < i → i < labels.length →
        (monthlyProfitFor monthOf ty logs labels).getD i (0, 0)
          = (labels.getD i 0,
             mvLookup (monthlyValue monthOf ty logs) (labels.getD i 0)
               - mvLookup (monthlyValue monthOf ty logs) (labels.getD (i - 1) 0)))
    ∧ (∀ (monthOf : Nat → Nat) (ty : String) (logs : List PLog)
          (labels : List Nat), 0 < labels.length →
        (monthlyProfitFor monthOf ty logs labels).getD 0 (0, 0) = (labels.getD 0 0, 0))
    ∧ monthlyProfitFor (fun d => d / 100) "stock"
        [⟨5, 1000, some "stock"⟩, ⟨105, 1100, some "stock"⟩, ⟨205, 1050, some "stock"⟩]
        [0, 1, 2]
        = [(0, 0), (1, 100), (2, -50)] := by
  refine ⟨?_, ?_, ?_, ?_⟩
  · intro monthOf ty logs e he
    constructor
    · rcases retain_provenance monthOf ty logs [] e he with h | ⟨log, hlog, hty, heq⟩
      · simp at h
      · exact ⟨log, hlog, hty, by rw [heq], by rw [heq], by rw [heq]⟩
    · intro log hlog hty hkey
      exact retain_latest monthOf ty logs [] (by simp) log hlog hty e he hkey.symm
  · intro monthOf ty logs labels i hi hilen
    unfold monthlyProfitFor
    rw [List.getD_eq_getElem?_getD, List.getElem?_map]
    rw [List.getElem?_range hilen]
    simp [Nat.pos_iff_ne_zero.mp hi]
  · intro monthOf ty logs labels hlen
    unfold monthlyProfitFor
    rw [List.getD_eq_getElem?_getD, List.getElem?_map]
    rw [List.getElem?_range hlen]
    simp
  · simp [monthlyProfitFor, monthlyValue, retainStep, mvLookup, List.range_succ] <;>
      norm_num

/-- Witness for C6: the retained-entry clause at the concrete log list (the
month-1 entry is the 1100 log, later than none within its month), together
with the profit clauses at the concrete labels. -/
theorem C6_monthly_profit_witness :
    ((∃ log ∈ [(⟨5, 1000, some "stock"⟩ : PLog), ⟨105, 1100, some "stock"⟩,
          ⟨205, 1050, some "stock"⟩], log.assetType = some "stock"
        ∧ log.date / 100 = 1 ∧ log.date = 105 ∧ log.value = 1100)
      ∧ ∀ log ∈ [(⟨5, 1000, some "stock"⟩ : PLog), ⟨105, 1100, some "stock"⟩,
          ⟨205, 1050, some "stock"⟩], log.assetType = some "stock" →
          log.date / 100 = 1 → log.date ≤ 105) := by
  have hmem : ((1, 105, 1100) : Nat × Nat × ℚ)
      ∈ monthlyValue (fun d => d / 100) "stock"
          [⟨5, 1000, some "stock"⟩, ⟨105, 1100, some "stock"⟩, ⟨205, 1050, some "stock"⟩] := by
    simp [monthlyValue, retainStep] <;> norm_num
  exact C6_monthly_profit.1 (fun d => d / 100) "stock"
    [⟨5, 1000, some "stock"⟩, ⟨105, 1100, some "stock"⟩, ⟨205, 1050, some "stock"⟩]
    (1, 105, 1100) hmem

/-! ## Top-movers lemmas (C7) -/

/-- Membership in an insertion. -/
theorem mem_insertDesc (r : Ranked) :
    ∀ (l : List Ranked) (x : Ranked), x ∈ insertDesc r l ↔ x = r ∨ x ∈ l := by
  intro l
  induction l with
  | nil => intro x; simp [insertDesc]
  | cons y ys ih =>
    intro x
    unfold insertDesc
    by_cases hle : y.growth ≤ r.growth
    · rw [if_pos hle]
      simp [or_comm, or_assoc, or_left_comm]
    · rw [if_neg hle]
      simp [ih, or_left_comm]

/-- Inserting into a descending-sorted list keeps it descending-sorted. -/
theorem pairwise_insertDesc (r : Ranked) :
    ∀ l : List Ranked,
      l.Pairwise (fun x y => y.growth ≤ x.growth) →
      (insertDesc r l).Pairwise (fun x y => y.growth ≤ x.growth) := by
  intro l
  induction l with
  | nil => intro _; simp [insertDesc]
  | cons x xs ih =>
    intro hp
    rw [List.pairwise_cons] at hp
    obtain ⟨hx, hxs⟩ := hp
    unfold insertDesc
    by_cases hle : x.growth ≤ r.growth
    · rw [if_pos hle, List.pairwise_cons]
      refine ⟨?_, List.Pairwise.cons hx hxs⟩
      intro y hy
      rcases List.mem_cons.mp hy with rfl | hy
      · exact hle
      · exact le_trans (hx y hy) hle
    · rw [if_neg hle, List.pairwise_cons]
      refine ⟨?_, ih hxs⟩
      intro y hy
      rcases (mem_insertDesc r xs y).mp hy with rfl | hy
      · exact le_of_lt (not_le.mp hle)
      · exact hx y hy

/-- The sort produces a weakly descending list. -/
theorem sortDesc_sorted :
    ∀ l : List Ranked, (sortDesc l).Pairwise (fun x y => y.growth ≤ x.growth) := by
  intro l
  induction l with
  | nil => simp [sortDesc]
  | cons x xs ih => exact pairwise_insertDesc x (sortDesc xs) ih

/-- The sort keeps exactly the input's elements. -/
theorem mem_sortDesc : ∀ (l : List Ranked) (x : Ranked), x ∈ sortDesc l ↔ x ∈ l := by
  intro l
  induction l with
  | nil => intro x; simp [sortDesc]
  | cons y ys ih =>
    intro x
    unfold sortDesc
    rw [mem_insertDesc, ih, List.mem_cons]

/-- Every ranked stock of the partition fold stems from a stock asset of the
input with at least two price observations. -/
theorem topStep_fold_stocks :
    ∀ (assets : List AssetInfo) (acc : List Ranked × List Ranked),
      ∀ r ∈ (assets.foldl topStep acc).1,
        r ∈ acc.1 ∨ ∃ a ∈ assets, 2 ≤ a.historyPriceArr.length
          ∧ a.assetType = "stock" ∧ r = mkRanked a := by
  intro assets
  induction assets with
  | nil => intro acc r hr; exact Or.inl hr
  | cons a as ih =>
    intro acc r hr
    rw [List.foldl_cons] at hr
    rcases ih (topStep acc a) r hr with hacc | ⟨b, hb, h2, hty, heq⟩
    · unfold topStep at hacc
      by_cases hlen : a.historyPriceArr.length < 2
      · rw [if_pos hlen] at hacc
        exact Or.inl hacc
      · rw [if_neg hlen] at hacc
        by_cases hst : a.assetType = "stock"
        · rw [if_pos hst] at hacc
          rcases List.mem_append.mp hacc with hacc | hacc
          · exact Or.inl hacc
          · exact Or.inr ⟨a, List.mem_cons_self a as, le_of_not_lt hlen, hst,
              List.mem_singleton.mp hacc⟩
        · rw [if_neg hst] at hacc
          by_cases hbd : a.assetType = "bond"
          · rw [if_pos hbd] at hacc
            exact Or.inl hacc
          · rw [if_neg hbd] at hacc
            exact Or.inl hacc
    · exact Or.inr ⟨b, List.mem_cons_of_mem a hb, h2, hty, heq⟩

/-- Every ranked bond of the partition fold stems from a bond asset of the
input with at least two price observations. -/
theorem topStep_fold_bonds :
    ∀ (assets : List AssetInfo) (acc : List Ranked × List Ranked),
      ∀ r ∈ (assets.foldl topStep acc).2,
        r ∈ acc.2 ∨ ∃ a ∈ assets, 2 ≤ a.historyPriceArr.length
          ∧ a.assetType = "bond" ∧ r = mkRanked a := by
  intro assets
  induction assets with
  | nil => intro acc r hr; exact Or.inl hr
  | cons a as ih =>
    intro acc r hr
    rw [List.foldl_cons] at hr
    rcases ih (topStep acc a) r hr with hacc | ⟨b, hb, h2, hty, heq⟩
    · unfold topStep at hacc
      by_cases hlen : a.historyPriceArr.length < 2
      · rw [if_pos hlen] at hacc
        exact Or.inl hacc
      · rw [if_neg hlen] at hacc
        by_cases hst : a.assetType = "stock"
        · rw [if_pos hst] at hacc
          exact Or.inl hacc
        · rw [if_neg hst] at hacc
          by_cases hbd : a.assetType = "bond"
          · rw [if_pos hbd] at hacc
            rcases List.mem_append.mp hacc with hacc | hacc
            · exact Or.inl hacc
            · exact Or.inr ⟨a, List.mem_cons_self a as, le_of_not_lt hlen, hbd,
                List.mem_singleton.mp hacc⟩
          · rw [if_neg hbd] at hacc
            exact Or.inl hacc
    · exact Or.inr ⟨b, List.mem_cons_of_mem a hb, h2, hty, heq⟩

/-- Asset A: prices 100 then 150 (growth +50%). -/
def topA : AssetInfo := ⟨"A", "Asset A", "stock", 150, [100, 150], [1, 2]⟩

/-- Asset B: prices 100 then 90 (growth −10%). -/
def topB : AssetInfo := ⟨"B", "Asset B", "stock", 90, [100, 90], [1, 2]⟩

/-- C7 (amended for the `toFixed(4)` rounding and percent scaling): each
output list is truncated to the limit, is weakly descending in the recorded
`growth` (which is `(lastPrice / firstPrice − 1)` rounded to four decimals and
multiplied by 100), and contains only records built from input assets of the
matching type with at least two price observations — assets with fewer are
excluded entirely; with assets A (prices [100, 150]) and B (prices [100, 90])
and limit 1, only A is returned, with recorded growth 50. -/
theorem C7_top_movers :
    (∀ (assets : List AssetInfo) (limit : Nat),
        (topMovers assets limit).1.length ≤ limit
          ∧ (topMovers assets limit).2.length ≤ limit
          ∧ (topMovers assets limit).1.Pairwise (fun x y => y.growth ≤ x.growth)
          ∧ (topMovers assets limit).2.Pairwise (fun x y => y.growth ≤ x.growth)
          ∧ (∀ r ∈ (topMovers assets limit).1,
              ∃ a ∈ assets, 2 ≤ a.historyPriceArr.length
                ∧ a.assetType = "stock" ∧ r = mkRanked a)
          ∧ (∀ r ∈ (topMovers assets limit).2,
              ∃ a ∈ assets, 2 ≤ a.historyPriceArr.length
                ∧ a.assetType = "bond" ∧ r = mkRanked a))
    ∧ (topMovers [topA, topB] 1).1.map (fun r => r.assetCode) = ["A"]
    ∧ (topMovers [topA, topB] 1).1.map (fun r => r.growth) = [50] := by
  refine ⟨?_, ?_, ?_⟩
  · intro assets limit
    refine ⟨?_, ?_, ?_, ?_, ?_, ?_⟩
    · simpa [topMovers] using List.length_take_le limit _
    · simpa [topMovers] using List.length_take_le limit _
    · exact List.Pairwise.sublist (List.take_sublist _ _) (sortDesc_sorted _)
    · exact List.Pairwise.sublist (List.take_sublist _ _) (sortDesc_sorted _)
    · intro r hr
      have hr2 : r ∈ sortDesc (assets.foldl topStep ([], [])).1 :=
        List.mem_of_mem_take hr
      have hr3 : r ∈ (assets.foldl topStep ([], [])).1 := (mem_sortDesc _ r).mp hr2
      rcases topStep_fold_stocks assets ([], []) r hr3 with h | h
      · simp at h
      · exact h
    · intro r hr
      have hr2 : r ∈ sortDesc (assets.foldl topStep ([], [])).2 :=
        List.mem_of_mem_take hr
      have hr3 : r ∈ (assets.foldl topStep ([], [])).2 := (mem_sortDesc _ r).mp hr2
      rcases topStep_fold_bonds assets ([], []) r hr3 with h | h
      · simp at h
      · exact h
  · simp [topMovers, topStep, mkRanked, sortDesc, insertDesc, topA, topB,
      round4, Rat.floor] <;> norm_num
  · simp [topMovers, topStep, mkRanked, sortDesc, insertDesc, topA, topB,
      round4, Rat.floor] <;> norm_num

/-- Asset C: prices 32 then 31, whose growth `-1/32` ties at four decimals. -/
def topC : AssetInfo := ⟨"C", "Asset C", "stock", 31, [32, 31], [1, 2]⟩

/-- Counterexample for C7 as stated: asset A's recorded growth is 50 (the
rounded percentage), not the ratio `(150/100) − 1 = 1/2` the claim gives.
The negative tie is also exercised: asset C's exact growth `-1/32` records as
`toFixed(4)` of `-0.03125` times 100, i.e. `-313/100`. -/
theorem C7_top_movers_cex :
    (topMovers [topA, topB] 1).1.map (fun r => r.growth) = [50]
      ∧ topA.historyPriceArr.getLastD 0 / topA.historyPriceArr.headD 0 - 1 = 1/2
      ∧ (50 : ℚ) ≠ 1/2
      ∧ topC.historyPriceArr.getLastD 0 / topC.historyPriceArr.headD 0 - 1 = -(1/32)
      ∧ (topMovers [topC] 1).1.map (fun r => r.growth) = [-(313/100)] := by
  refine ⟨?_, ?_, by norm_num, ?_, ?_⟩ <;>
    simp [topMovers, topStep, mkRanked, sortDesc, insertDesc, topA, topB, topC,
      round4, Rat.floor] <;> norm_num

/-- Witness for C7 at the concrete two-asset input with limit 1. -/
theorem C7_top_movers_witness :
    (topMovers [topA, topB] 1).1.length ≤ 1
      ∧ (topMovers [topA, topB] 1).2.length ≤ 1
      ∧ (topMovers [topA, topB] 1).1.Pairwise (fun x y => y.growth ≤ x.growth)
      ∧ (topMovers [topA, topB] 1).2.Pairwise (fun x y => y.growth ≤ x.growth)
      ∧ (∀ r ∈ (topMovers [topA, topB] 1).1,
          ∃ a ∈ [topA, topB], 2 ≤ a.historyPriceArr.length
            ∧ a.assetType = "stock" ∧ r = mkRanked a)
      ∧ (∀ r ∈ (topMovers [topA, topB] 1).2,
          ∃ a ∈ [topA, topB], 2 ≤ a.historyPriceArr.length
            ∧ a.assetType = "bond" ∧ r = mkRanked a) :=
  C7_top_movers.1 [topA, topB] 1

/-- Witness for C10: the count/filter identity at the concrete short-only
portfolio. -/
theorem C10_assetCount_excludes_shorts_witness :
    (computeSummary [exSellShort] exPm).assetCount
      = ((computeSummary [exSellShort] exPm).holdings.filter
          (fun h => h.status = "long")).length :=
  C10_assetCount_excludes_shorts.1 [exSellShort] exPm

/-- C9: the valuation is a pure function of the transaction list and the
asset map — equal inputs give equal outputs. -/
theorem C9_deterministic (items items2 : List Item)
    (pm pm2 : String → Option AssetInfo)
    (hitems : items = items2) (hpm : pm = pm2) :
    computeSummary items pm = computeSummary items2 pm2 := by
  rw [hitems, hpm]

/-- Witness for C9 at a concrete input. -/
theorem C9_deterministic_witness :
    computeSummary [exBuy10, exSell4] exPm = computeSummary [exBuy10, exSell4] exPm :=
  C9_deterministic [exBuy10, exSell4] [exBuy10, exSell4] exPm exPm rfl rfl

end Backend
